import Mathlib

/-!
Verification of the ICS-import transformation core of the CustomCal
repository: event normalization (src/main/importIcs.ts), grouping,
selection filtering and date formatting (src/renderer/src/App.tsx).

The embedding models JavaScript Date values as epoch milliseconds
(Int) with the local time zone fixed to UTC, so local calendar
fields (getFullYear, getMonth, getDate, getHours, ...) are computed
from the epoch directly.  Calendar-date conversion uses the proleptic
Gregorian calendar exactly as specified by ECMA-262; the conversion
functions below are the standard era-based civil-date algorithms.
Division on Int is Euclidean division, which coincides with floor
division for the positive literal divisors used throughout.
-/

/-- Day number (from 1970-01-01, March-based era arithmetic) of the
start of year-of-era arithmetic helper: number of days before year y
counted from year 0 of the era scheme. -/
def yearStartI (y : Int) : Int := 365 * y + y / 4 - y / 100 + y / 400

/-- Numerator used by the civil-from-days algorithm to locate the
year-of-era of a day-of-era. -/
def nnI (d : Int) : Int := d - d / 1460 + d / 36524 - d / 146096

/-- Year-of-era of a day-of-era. -/
def yoeI (d : Int) : Int := nnI d / 365

theorem nnI_succ_mono (d : Int) (h0 : 0 ≤ d) (h : d + 1 ≤ 146096) : nnI d ≤ nnI (d + 1) := by
  simp only [nnI]
  omega

theorem nnI_mono (a b : Int) (ha : 0 ≤ a) (hab : a ≤ b) (hb : b ≤ 146096) : nnI a ≤ nnI b := by
  refine Int.le_induction (m := a) (P := fun b => b ≤ 146096 → nnI a ≤ nnI b) ?_ ?_ b hab hb
  · intro _
    exact le_refl _
  · intro n hn ih h
    exact le_trans (ih (by omega)) (nnI_succ_mono n (by omega) (by omega))

set_option maxHeartbeats 4000000 in
set_option maxRecDepth 100000 in
theorem endpointsI : ∀ y : Nat, y < 400 →
    365 * (y : Int) ≤ nnI (yearStartI (y : Int)) ∧
    nnI (yearStartI ((y : Int) + 1) - 1) ≤ 365 * (y : Int) + 364 := by
  decide

theorem yearStartI_succ (y : Int) : yearStartI y < yearStartI (y + 1) := by
  simp only [yearStartI]
  omega

theorem yearStartI_gap (y : Int) : yearStartI (y + 1) ≤ yearStartI y + 366 := by
  simp only [yearStartI]
  rcases em (4 ∣ y + 1) with h4 | h4 <;>
    rcases em (100 ∣ y + 1) with h100 | h100 <;>
      rcases em (400 ∣ y + 1) with h400 | h400 <;>
        omega

theorem yearStartI_mono (a b : Int) (hab : a ≤ b) : yearStartI a ≤ yearStartI b := by
  refine Int.le_induction (m := a) (P := fun b => yearStartI a ≤ yearStartI b) ?_ ?_ b hab
  · exact le_refl _
  · intro n hn ih
    exact le_trans ih (le_of_lt (yearStartI_succ n))

theorem bracketI : ∀ doe : Int, 0 ≤ doe → doe ≤ 146096 →
    ∃ y : Nat, y ≤ 399 ∧ yearStartI (y : Int) ≤ doe ∧ doe < yearStartI ((y : Int) + 1) := by
  intro doe h0 h1
  refine Int.le_induction (m := 0)
    (P := fun doe => doe ≤ 146096 →
      ∃ y : Nat, y ≤ 399 ∧ yearStartI (y : Int) ≤ doe ∧ doe < yearStartI ((y : Int) + 1))
    ?_ ?_ doe h0 h1
  · intro _
    exact ⟨0, by decide⟩
  · intro n hn ih h
    obtain ⟨y, hy, hb1, hb2⟩ := ih (by omega)
    rcases lt_or_le (n + 1) (yearStartI ((y : Int) + 1)) with h3 | h3
    · exact ⟨y, hy, by omega, h3⟩
    · have hy2 : y + 1 ≤ 399 := by
        rcases Nat.lt_or_ge y 399 with h4 | h4
        · omega
        · exfalso
          have hy399 : ((y : Int) + 1) = 400 := by omega
          rw [hy399] at h3
          have h400 : yearStartI 400 = 146097 := by decide
          omega
      have hs := yearStartI_succ ((y : Int) + 1)
      refine ⟨y + 1, hy2, ?_, ?_⟩
      · push_cast
        omega
      · push_cast
        push_cast at hs
        omega

theorem cruxI (doe : Int) (h0 : 0 ≤ doe) (h1 : doe ≤ 146096) :
    0 ≤ yoeI doe ∧ yoeI doe ≤ 399 ∧
    365 * yoeI doe + yoeI doe / 4 - yoeI doe / 100 ≤ doe ∧
    doe ≤ 365 * yoeI doe + yoeI doe / 4 - yoeI doe / 100 + 365 := by
  obtain ⟨y, hy, hb1, hb2⟩ := bracketI doe h0 h1
  have he := endpointsI y (by omega)
  have hm1 : nnI (yearStartI (y : Int)) ≤ nnI doe := by
    apply nnI_mono _ _ ?_ hb1 h1
    simp only [yearStartI]
    omega
  have hm2 : nnI doe ≤ nnI (yearStartI ((y : Int) + 1) - 1) := by
    apply nnI_mono doe _ h0 (by omega) ?_
    have h400 : yearStartI 400 = 146097 := by decide
    have := yearStartI_mono ((y : Int) + 1) 400 (by omega)
    omega
  have hyoe : yoeI doe = (y : Int) := by
    simp only [yoeI]
    omega
  rw [hyoe]
  have hgap := yearStartI_gap (y : Int)
  refine ⟨by omega, by omega, ?_, ?_⟩
  · simp only [yearStartI] at hb1
    omega
  · simp only [yearStartI] at hgap hb2
    omega

/-- Conversion from a day number (days since 1970-01-01, possibly
negative) to the civil Gregorian date (year, month, day), as computed
by JavaScript Date's local date accessors under a UTC-fixed zone. -/
def civilFromDays (z0 : Int) : Int × Int × Int :=
  let z := z0 + 719468
  let era := z / 146097
  let doe := z - era * 146097
  let yoe := (doe - doe / 1460 + doe / 36524 - doe / 146096) / 365
  let y := yoe + era * 400
  let doy := doe - (365 * yoe + yoe / 4 - yoe / 100)
  let mp := (5 * doy + 2) / 153
  let d := doy - (153 * mp + 2) / 5 + 1
  let m := if mp < 10 then mp + 3 else mp - 9
  (if m ≤ 2 then y + 1 else y, m, d)

/-- Conversion from a civil Gregorian date (year, month, day) back to
a day number, as computed by the JavaScript Date constructor
new Date(y, m - 1, d) under a UTC-fixed zone (divided by one day of
milliseconds). -/
def daysFromCivil (p : Int × Int × Int) : Int :=
  let y := if p.2.1 ≤ 2 then p.1 - 1 else p.1
  let era := y / 400
  let yoe := y - era * 400
  let mp := if p.2.1 > 2 then p.2.1 - 3 else p.2.1 + 9
  let doy := (153 * mp + 2) / 5 + p.2.2 - 1
  let doe := yoe * 365 + yoe / 4 - yoe / 100 + doy
  era * 146097 + doe - 719468

theorem civil_inv_core (era yoe doy mp : Int) (h0 : 0 ≤ yoe) (h1 : yoe ≤ 399)
    (hmp0 : 0 ≤ mp) (hmp1 : mp ≤ 11) :
    daysFromCivil
      ((if (if mp < 10 then mp + 3 else mp - 9) ≤ 2 then yoe + era * 400 + 1
          else yoe + era * 400),
        (if mp < 10 then mp + 3 else mp - 9),
        doy - (153 * mp + 2) / 5 + 1)
      = era * 146097 + (yoe * 365 + yoe / 4 - yoe / 100 + doy) - 719468 := by
  have hk : (yoe + era * 400) / 400 = era := by omega
  simp only [daysFromCivil]
  split_ifs <;>
    (try (exfalso; omega)) <;>
    (try simp only [Int.add_sub_cancel, Int.sub_add_cancel]) <;>
    (try rw [hk]) <;>
    (try simp only [Int.add_sub_cancel]) <;>
    (try generalize (153 * mp + 2) / 5 = q) <;>
    omega

set_option maxHeartbeats 1000000 in
/-- The civil-date conversion is a right inverse of the day-number
conversion on every day number. -/
theorem days_civil_roundtrip (z : Int) : daysFromCivil (civilFromDays z) = z := by
  simp only [civilFromDays]
  generalize he : (z + 719468) / 146097 = era
  have hdoe0 : 0 ≤ z + 719468 - era * 146097 := by omega
  have hdoe1 : z + 719468 - era * 146097 ≤ 146096 := by omega
  generalize hd : z + 719468 - era * 146097 = doe at hdoe0 hdoe1 ⊢
  have hcx := cruxI doe hdoe0 hdoe1
  simp only [yoeI, nnI] at hcx
  revert hcx
  generalize hy : (doe - doe / 1460 + doe / 36524 - doe / 146096) / 365 = yoe
  intro hcx
  generalize hdoy : doe - (365 * yoe + yoe / 4 - yoe / 100) = doy
  generalize hmp : (5 * doy + 2) / 153 = mp
  rw [show z = era * 146097 + (yoe * 365 + yoe / 4 - yoe / 100 + doy) - 719468 from by omega]
  exact civil_inv_core era yoe doy mp (by omega) (by omega) (by omega) (by omega)

/-- Calendar-local (year, month, day) of an epoch-millisecond instant,
as the source ymd helper computes via getFullYear, getMonth + 1 and
getDate (src/main/importIcs.ts). -/
def ymd (t : Int) : Int × Int × Int := civilFromDays (t / 86400000)

/-- Epoch milliseconds of local midnight of a (year, month, day)
triple, as the renderer computes via new Date(y, m - 1, d).getTime()
(src/renderer/src/App.tsx). -/
def msFromYMD (p : Int × Int × Int) : Int := daysFromCivil p * 86400000

/-- Local hour of an epoch-millisecond instant (JavaScript getHours). -/
def getHours (t : Int) : Int := t % 86400000 / 3600000

/-- Local minute of an epoch-millisecond instant (JavaScript getMinutes). -/
def getMinutes (t : Int) : Int := t % 3600000 / 60000

/-- Local second of an epoch-millisecond instant (JavaScript getSeconds). -/
def getSeconds (t : Int) : Int := t % 60000 / 1000

/-- Raw VEVENT-typed record as delivered by the ICS source library.
Fields that may be absent or invalid are Options: start and end are
valid Date instants (epoch ms) when present, datetype is the explicit
date-only marker field. -/
structure RawRecord where
  datetype : Option String
  start : Option Int
  «end» : Option Int
  summary : Option String
  description : Option String
  location : Option String
deriving DecidableEq

/-- Normalized event produced by the import pipeline
(src/main/importIcs.ts) and consumed by the renderer. -/
structure NormalizedEvent where
  summary : String
  description : String
  location : String
  isAllDay : Bool
  startMs : Int
  endMs : Int
  startYMD : Option (Int × Int × Int)
  endYMD : Option (Int × Int × Int)
deriving DecidableEq

/-- All-day classification of a raw record, embedding isAllDayEvent of
src/main/importIcs.ts lines 18-42.  The JavaScript remainder operator
agrees with Euclidean remainder here because it is only consulted
under the guard that the duration is nonnegative. -/
def isAllDayEvent (v : RawRecord) : Bool :=
  if v.datetype = some "date" then true
  else
    match v.start, v.«end» with
    | some s, some e =>
      (getHours s == 0 && getMinutes s == 0 && getSeconds s == 0 &&
        getHours e == 0 && getMinutes e == 0 && getSeconds e == 0) &&
      decide (0 ≤ e - s) && decide ((e - s) % 86400000 = 0)
    | _, _ => false

/-- Resolved start instant: the raw start when it is a valid Date,
otherwise the current time (the new Date() fallback in
src/main/importIcs.ts line 62).  The now parameter models the clock
reading at normalization time. -/
def resolvedStart (now : Int) (v : RawRecord) : Int := v.start.getD now

/-- Resolved end instant: the raw end when valid, else start plus one
day (all-day) or one hour (timed); an all-day end not strictly after
the start is forced to start plus one day
(src/main/importIcs.ts lines 67-76). -/
def resolvedEnd (now : Int) (v : RawRecord) : Int :=
  let allDay := isAllDayEvent v
  let start := resolvedStart now v
  let end0 := v.«end».getD (start + if allDay then 86400000 else 3600000)
  if allDay = true ∧ end0 ≤ start then start + 86400000 else end0

/-- Normalization of one raw VEVENT record, embedding the map body of
importIcsToCalendar (src/main/importIcs.ts lines 57-92). -/
def normalizeVEvent (now : Int) (v : RawRecord) : NormalizedEvent :=
  let allDay := isAllDayEvent v
  { summary := v.summary.getD "(no title)"
    description := v.description.getD ""
    location := v.location.getD ""
    isAllDay := allDay
    startMs := resolvedStart now v
    endMs := resolvedEnd now v
    startYMD := if allDay then some (ymd (resolvedStart now v)) else none
    endYMD := if allDay then some (ymd (resolvedEnd now v)) else none }

theorem normalize_isAllDay (now : Int) (v : RawRecord) :
    (normalizeVEvent now v).isAllDay = isAllDayEvent v := rfl

theorem normalize_startMs (now : Int) (v : RawRecord) :
    (normalizeVEvent now v).startMs = resolvedStart now v := rfl

theorem normalize_endMs (now : Int) (v : RawRecord) :
    (normalizeVEvent now v).endMs = resolvedEnd now v := rfl

theorem normalize_summary (now : Int) (v : RawRecord) :
    (normalizeVEvent now v).summary = v.summary.getD "(no title)" := rfl

theorem normalize_startYMD (now : Int) (v : RawRecord) :
    (normalizeVEvent now v).startYMD =
      if isAllDayEvent v then some (ymd (resolvedStart now v)) else none := rfl

theorem normalize_endYMD (now : Int) (v : RawRecord) :
    (normalizeVEvent now v).endYMD =
      if isAllDayEvent v then some (ymd (resolvedEnd now v)) else none := rfl

theorem resolvedEnd_of_not_allDay (now : Int) (v : RawRecord)
    (hb : isAllDayEvent v = false) :
    resolvedEnd now v = v.«end».getD (resolvedStart now v + 3600000) := by
  simp [resolvedEnd, hb]

theorem resolvedEnd_of_allDay_none (now : Int) (v : RawRecord)
    (hb : isAllDayEvent v = true) (he : v.«end» = none) :
    resolvedEnd now v = resolvedStart now v + 86400000 := by
  simp only [resolvedEnd, hb, he, Option.getD_none, if_true]
  rw [if_neg]
  intro hc
  omega

theorem resolvedEnd_of_allDay_le (now : Int) (v : RawRecord) (e : Int)
    (hb : isAllDayEvent v = true) (he : v.«end» = some e)
    (hle : e ≤ resolvedStart now v) :
    resolvedEnd now v = resolvedStart now v + 86400000 := by
  simp only [resolvedEnd, hb, he, Option.getD_some]
  rw [if_pos (And.intro (by trivial) hle)]

theorem resolvedEnd_of_allDay_gt (now : Int) (v : RawRecord) (e : Int)
    (hb : isAllDayEvent v = true) (he : v.«end» = some e)
    (hgt : resolvedStart now v < e) :
    resolvedEnd now v = e := by
  simp only [resolvedEnd, hb, he, Option.getD_some]
  rw [if_neg]
  intro hc
  omega

/-- Sample record used to exercise C1 as stated: a timed record whose
raw end instant lies strictly before its raw start instant. -/
def recTimedBackwards : RawRecord :=
  { datetype := none, start := some 43200000, «end» := some 0,
    summary := some "meeting", description := none, location := none }

/-- C1, counterexample: the normalized event of a timed record whose
raw end lies strictly before its raw start violates endMs at least
startMs, so the claimed unconditional invariant fails. -/
theorem C1_counterexample :
    ¬ (normalizeVEvent 0 recTimedBackwards).startMs ≤
        (normalizeVEvent 0 recTimedBackwards).endMs := by decide

/-- C1, amended: endMs at least startMs holds for every normalized
event that is classified all-day, and for every record whose raw end
(when present and valid) is not before the resolved start; a timed
record with a valid raw end strictly before its start keeps that end,
so the invariant fails exactly there. -/
theorem C1_amended (now : Int) (r : RawRecord)
    (h : (normalizeVEvent now r).isAllDay = true ∨
      ∀ e, r.«end» = some e → r.start.getD now ≤ e) :
    (normalizeVEvent now r).startMs ≤ (normalizeVEvent now r).endMs := by
  rw [normalize_startMs, normalize_endMs]
  cases hba : isAllDayEvent r with
  | true =>
    rcases hre : r.«end» with _ | e
    · rw [resolvedEnd_of_allDay_none now r hba hre]
      omega
    · rcases le_or_lt e (resolvedStart now r) with hle | hgt
      · rw [resolvedEnd_of_allDay_le now r e hba hre hle]
        omega
      · rw [resolvedEnd_of_allDay_gt now r e hba hre hgt]
        omega
  | false =>
    rcases h with h | h
    · rw [normalize_isAllDay, hba] at h
      cases h
    · rw [resolvedEnd_of_not_allDay now r hba]
      rcases hre : r.«end» with _ | e
      · simp only [Option.getD_none]
        omega
      · simp only [Option.getD_some]
        exact h e hre

/-- Sample record with a valid start and no valid end. -/
def recStartOnly : RawRecord :=
  { datetype := none, start := some 42, «end» := none,
    summary := none, description := none, location := none }

/-- C1, witness: the amended invariant applied to a concrete timed
record with no raw end. -/
theorem C1_witness :
    (normalizeVEvent 0 recStartOnly).startMs ≤ (normalizeVEvent 0 recStartOnly).endMs :=
  C1_amended 0 recStartOnly (Or.inr (by intro e he; simp [recStartOnly] at he))

/-- Sample record whose raw summary is present but equal to the empty
string. -/
def recEmptySummary : RawRecord :=
  { datetype := none, start := some 0, «end» := some 3600000,
    summary := some "", description := none, location := none }

/-- C2, counterexample: a raw record whose summary is the empty string
normalizes to the empty-string summary, not to the (no title) default;
the nullish-coalescing fallback in the source fires only for an absent
summary. -/
theorem C2_counterexample :
    (normalizeVEvent 0 recEmptySummary).summary ≠ "(no title)" := by decide

/-- C2, amended: the normalized summary equals the raw summary
whenever one is present (even the empty string), and equals
"(no title)" exactly when the raw summary is absent. -/
theorem C2_amended (now : Int) (r : RawRecord) :
    (normalizeVEvent now r).summary = r.summary.getD "(no title)" := rfl

/-- Sample record with no valid start instant at all. -/
def recNoStart : RawRecord :=
  { datetype := none, start := none, «end» := none,
    summary := none, description := none, location := none }

/-- C3, counterexample: normalizing a record that lacks a valid start
instant at two different clock readings yields different normalized
events, because the source falls back to new Date(); normalization is
not a function of the record alone. -/
theorem C3_counterexample :
    normalizeVEvent 0 recNoStart ≠ normalizeVEvent 3600000 recNoStart := by decide

/-- C3, amended: for every raw record that has a valid start instant,
normalization is deterministic: the result does not depend on the
clock reading. -/
theorem C3_amended (r : RawRecord) (now1 now2 : Int)
    (h : ∃ s, r.start = some s) :
    normalizeVEvent now1 r = normalizeVEvent now2 r := by
  obtain ⟨s, hs⟩ := h
  simp [normalizeVEvent, resolvedStart, resolvedEnd, hs]

/-- C3, witness: determinism of normalization at a concrete record
with a valid start, evaluated at two different clock readings. -/
theorem C3_witness : normalizeVEvent 0 recStartOnly = normalizeVEvent 99 recStartOnly :=
  C3_amended recStartOnly 0 99 ⟨42, rfl⟩

theorem daysFromCivil_ymd (t : Int) : daysFromCivil (ymd t) = t / 86400000 := by
  simp only [ymd]
  exact days_civil_roundtrip (t / 86400000)

/-- Sample record with the explicit date-only marker whose raw end
instant falls later on the same calendar day as the start. -/
def recDateMarkerSameDay : RawRecord :=
  { datetype := some "date", start := some 0, «end» := some 21600000,
    summary := none, description := none, location := none }

/-- C4, counterexample: a record carrying the explicit date-only
marker whose raw end instant falls on the same calendar day as (and
strictly after) the start normalizes to an all-day event whose endYMD
equals its startYMD, so endYMD is not strictly after startYMD. -/
theorem C4_counterexample :
    (normalizeVEvent 0 recDateMarkerSameDay).isAllDay = true ∧
    (normalizeVEvent 0 recDateMarkerSameDay).startYMD = some (1970, 1, 1) ∧
    (normalizeVEvent 0 recDateMarkerSameDay).endYMD = some (1970, 1, 1) := by decide

/-- C4, amended: every all-day normalized event has both YMD fields
populated with the end date on or after the start date (as day
numbers); the end date is strictly later whenever the raw end instant
is absent or not strictly after the resolved start (the forced
start-plus-one-day fallback), but an explicitly marked record whose
raw end falls strictly after the start on the same calendar day keeps
an end date equal to its start date. -/
theorem C4_amended (now : Int) (r : RawRecord)
    (h : (normalizeVEvent now r).isAllDay = true) :
    ∃ sy ey, (normalizeVEvent now r).startYMD = some sy ∧
      (normalizeVEvent now r).endYMD = some ey ∧
      daysFromCivil sy ≤ daysFromCivil ey ∧
      ((∀ e, r.«end» = some e → e ≤ r.start.getD now) →
        daysFromCivil sy < daysFromCivil ey) := by
  have hb : isAllDayEvent r = true := by rwa [normalize_isAllDay] at h
  refine ⟨ymd (resolvedStart now r), ymd (resolvedEnd now r), ?_, ?_, ?_, ?_⟩
  · rw [normalize_startYMD, hb]
    simp
  · rw [normalize_endYMD, hb]
    simp
  · rw [daysFromCivil_ymd, daysFromCivil_ymd]
    rcases hre : r.«end» with _ | e
    · rw [resolvedEnd_of_allDay_none now r hb hre]
      omega
    · rcases le_or_lt e (resolvedStart now r) with hle | hgt
      · rw [resolvedEnd_of_allDay_le now r e hb hre hle]
        omega
      · rw [resolvedEnd_of_allDay_gt now r e hb hre hgt]
        omega
  · intro hst
    rw [daysFromCivil_ymd, daysFromCivil_ymd]
    rcases hre : r.«end» with _ | e
    · rw [resolvedEnd_of_allDay_none now r hb hre]
      omega
    · have hle : e ≤ resolvedStart now r := hst e hre
      rw [resolvedEnd_of_allDay_le now r e hb hre hle]
      omega

/-- Sample record with the explicit date-only marker and no raw end. -/
def recDateNoEnd : RawRecord :=
  { datetype := some "date", start := some 0, «end» := none,
    summary := none, description := none, location := none }

/-- C4, witness: the amended statement applied to a concrete marked
record with no raw end instant. -/
theorem C4_witness :
    ∃ sy ey, (normalizeVEvent 0 recDateNoEnd).startYMD = some sy ∧
      (normalizeVEvent 0 recDateNoEnd).endYMD = some ey ∧
      daysFromCivil sy ≤ daysFromCivil ey ∧
      ((∀ e, recDateNoEnd.«end» = some e → e ≤ recDateNoEnd.start.getD 0) →
        daysFromCivil sy < daysFromCivil ey) :=
  C4_amended 0 recDateNoEnd (by decide)

/-- C5: for a record without the explicit date-only marker but with
valid start and end instants, the normalizer classifies it all-day
exactly when both instants fall on local midnight (hour, minute and
second all zero) and the duration is a nonnegative exact multiple of
24 hours. -/
theorem C5_allDay_heuristic (now : Int) (r : RawRecord) (s e : Int)
    (hdt : r.datetype ≠ some "date") (hs : r.start = some s) (he : r.«end» = some e) :
    (normalizeVEvent now r).isAllDay = true ↔
      (getHours s = 0 ∧ getMinutes s = 0 ∧ getSeconds s = 0 ∧
       getHours e = 0 ∧ getMinutes e = 0 ∧ getSeconds e = 0 ∧
       0 ≤ e - s ∧ (e - s) % 86400000 = 0) := by
  rw [normalize_isAllDay]
  simp only [isAllDayEvent, hs, he]
  rw [if_neg hdt]
  simp only [Bool.and_eq_true, decide_eq_true_eq, beq_iff_eq]
  tauto

/-- Sample unmarked record with start and end at local midnights one
day apart. -/
def recMidnightPair : RawRecord :=
  { datetype := none, start := some 0, «end» := some 86400000,
    summary := none, description := none, location := none }

/-- C5, witness: the heuristic applied to a concrete midnight-aligned
whole-day record. -/
theorem C5_witness : (normalizeVEvent 0 recMidnightPair).isAllDay = true :=
  (C5_allDay_heuristic 0 recMidnightPair 0 86400000 (by decide) rfl rfl).mpr (by decide)

/-- Drop leading characters satisfying a predicate from a character
list. -/
def dropWhileChar (p : Char → Bool) : List Char → List Char
  | [] => []
  | c :: cs => if p c then dropWhileChar p cs else c :: cs

/-- Model of the JavaScript String.prototype.trim method: remove
whitespace from both ends of the string. -/
def jsTrim (s : String) : String :=
  String.mk ((dropWhileChar Char.isWhitespace
    ((dropWhileChar Char.isWhitespace s.data.reverse).reverse)))

/-- Model of the JavaScript toLocaleLowerCase method: lowercase every
character (simple case folding of the default locale). -/
def jsToLower (s : String) : String := String.mk (s.data.map Char.toLower)

/-- Group key derivation: trimmed, locale-lowercased summary
(groupKeyForSummary in src/renderer/src/App.tsx). -/
def groupKeyForSummary (summary : String) : String := jsToLower (jsTrim summary)

/-- Display label of an event: the trimmed summary, or "(no title)"
when the trimmed summary is empty (the summary.trim() or-default in
src/renderer/src/App.tsx). -/
def eventLabel (e : NormalizedEvent) : String :=
  if jsTrim e.summary = "" then "(no title)" else jsTrim e.summary

/-- Group key of an event, derived from its label. -/
def eventKey (e : NormalizedEvent) : String := groupKeyForSummary (eventLabel e)

/-- Group of events sharing one key (EventGroup in
src/renderer/src/App.tsx). -/
structure EventGroup where
  key : String
  label : String
  events : List NormalizedEvent
deriving DecidableEq

/-- One step of the grouping loop: append the event to the existing
group with its key, or append a fresh singleton group at the end.
This models one iteration of the insertion-ordered Map loop of
groupEventsBySummary (src/renderer/src/App.tsx lines 26-47). -/
def insertEvent (gs : List EventGroup) (e : NormalizedEvent) : List EventGroup :=
  match gs with
  | [] => [{ key := eventKey e, label := eventLabel e, events := [e] }]
  | g :: rest =>
    if g.key = eventKey e then { g with events := g.events ++ [e] } :: rest
    else g :: insertEvent rest e

/-- Grouping engine: fold the insertion step over the input events
(groupEventsBySummary in src/renderer/src/App.tsx). -/
def groupEventsBySummary (events : List NormalizedEvent) : List EventGroup :=
  events.foldl insertEvent []

/-- Keys of the input events in first-seen order, skipping keys
already seen. -/
def firstSeenKeys (seen : List String) : List NormalizedEvent → List String
  | [] => []
  | e :: rest =>
    if eventKey e ∈ seen then firstSeenKeys seen rest
    else eventKey e :: firstSeenKeys (eventKey e :: seen) rest

theorem insertEvent_join (gs : List EventGroup) (e : NormalizedEvent) :
    ((insertEvent gs e).map EventGroup.events).flatten.Perm
      ((gs.map EventGroup.events).flatten ++ [e]) := by
  induction gs with
  | nil => simp [insertEvent]
  | cons g rest ih =>
    simp only [insertEvent]
    split_ifs with h
    · simp only [List.map_cons, List.flatten_cons, List.append_assoc]
      exact List.Perm.append_left g.events List.perm_append_comm
    · simp only [List.map_cons, List.flatten_cons]
      exact (List.Perm.append_left g.events ih).trans
        (List.Perm.of_eq (List.append_assoc _ _ _).symm)

theorem foldl_insertEvent_join (evs : List NormalizedEvent) : ∀ gs : List EventGroup,
    ((evs.foldl insertEvent gs).map EventGroup.events).flatten.Perm
      ((gs.map EventGroup.events).flatten ++ evs) := by
  induction evs with
  | nil =>
    intro gs
    simp
  | cons e rest ih =>
    intro gs
    simp only [List.foldl_cons]
    refine (ih (insertEvent gs e)).trans ?_
    refine (List.Perm.append_right rest (insertEvent_join gs e)).trans ?_
    exact List.Perm.of_eq (by simp [List.append_assoc])

theorem mem_insertEvent (gs : List EventGroup) (e : NormalizedEvent) (g : EventGroup)
    (hg : g ∈ insertEvent gs e) :
    g ∈ gs ∨
    (∃ g0 ∈ gs, g.key = g0.key ∧ g.label = g0.label ∧ g.events = g0.events ++ [e]) ∨
    (g.key = eventKey e ∧ g.label = eventLabel e ∧ g.events = [e] ∧
      eventKey e ∉ gs.map EventGroup.key) := by
  induction gs with
  | nil =>
    simp only [insertEvent, List.mem_singleton] at hg
    subst hg
    exact Or.inr (Or.inr ⟨rfl, rfl, rfl, by simp⟩)
  | cons g0 rest ih =>
    simp only [insertEvent] at hg
    split_ifs at hg with h
    · rcases List.mem_cons.mp hg with hg1 | hg1
      · subst hg1
        exact Or.inr (Or.inl ⟨g0, List.mem_cons_self g0 rest, rfl, rfl, rfl⟩)
      · exact Or.inl (List.mem_cons_of_mem g0 hg1)
    · rcases List.mem_cons.mp hg with hg1 | hg1
      · subst hg1
        exact Or.inl (List.mem_cons_self g rest)
      · rcases ih hg1 with h1 | h1 | h1
        · exact Or.inl (List.mem_cons_of_mem g0 h1)
        · obtain ⟨g1, hg1m, hk, hl, hev⟩ := h1
          exact Or.inr (Or.inl ⟨g1, List.mem_cons_of_mem g0 hg1m, hk, hl, hev⟩)
        · obtain ⟨hk, hl, hev, hmem⟩ := h1
          refine Or.inr (Or.inr ⟨hk, hl, hev, ?_⟩)
          simp only [List.map_cons, List.mem_cons]
          rintro (hx | hx)
          · exact h (hx ▸ rfl)
          · exact hmem hx

theorem insertEvent_sublist (gs : List EventGroup) (e : NormalizedEvent)
    (pre : List NormalizedEvent) (hinv : ∀ g ∈ gs, g.events.Sublist pre) :
    ∀ g ∈ insertEvent gs e, g.events.Sublist (pre ++ [e]) := by
  intro g hg
  rcases mem_insertEvent gs e g hg with h | ⟨g0, hg0, hk, hl, hev⟩ | ⟨hk, hl, hev, hmem⟩
  · exact (hinv g h).trans (List.sublist_append_left pre [e])
  · rw [hev]
    exact List.Sublist.append (hinv g0 hg0) (List.Sublist.refl [e])
  · rw [hev]
    exact List.sublist_append_right pre [e]

theorem foldl_insertEvent_sublist (evs : List NormalizedEvent) :
    ∀ (gs : List EventGroup) (pre : List NormalizedEvent),
    (∀ g ∈ gs, g.events.Sublist pre) →
    ∀ g ∈ evs.foldl insertEvent gs, g.events.Sublist (pre ++ evs) := by
  induction evs with
  | nil =>
    intro gs pre hinv g hg
    simpa using hinv g hg
  | cons e rest ih =>
    intro gs pre hinv g hg
    simp only [List.foldl_cons] at hg
    have := ih (insertEvent gs e) (pre ++ [e]) (insertEvent_sublist gs e pre hinv) g hg
    simpa [List.append_assoc] using this

theorem keys_insertEvent (gs : List EventGroup) (e : NormalizedEvent) :
    (insertEvent gs e).map EventGroup.key =
      if eventKey e ∈ gs.map EventGroup.key then gs.map EventGroup.key
      else gs.map EventGroup.key ++ [eventKey e] := by
  induction gs with
  | nil => simp [insertEvent]
  | cons g rest ih =>
    simp only [insertEvent, List.map_cons]
    by_cases h : g.key = eventKey e
    · rw [if_pos h]
      have hmem : eventKey e ∈ g.key :: rest.map EventGroup.key :=
        List.mem_cons.mpr (Or.inl h.symm)
      rw [if_pos hmem]
      simp
    · rw [if_neg h, List.map_cons, ih]
      by_cases h2 : eventKey e ∈ rest.map EventGroup.key
      · rw [if_pos h2, if_pos (List.mem_cons_of_mem g.key h2)]
      · rw [if_neg h2, if_neg ?hneg]
        · simp
        case hneg =>
          intro hx
          rcases List.mem_cons.mp hx with hx1 | hx1
          · exact h hx1.symm
          · exact h2 hx1

theorem firstSeenKeys_congr (evs : List NormalizedEvent) : ∀ s1 s2 : List String,
    (∀ k, k ∈ s1 ↔ k ∈ s2) → firstSeenKeys s1 evs = firstSeenKeys s2 evs := by
  induction evs with
  | nil =>
    intro s1 s2 _
    rfl
  | cons e rest ih =>
    intro s1 s2 hiff
    simp only [firstSeenKeys]
    by_cases h : eventKey e ∈ s1
    · rw [if_pos h, if_pos ((hiff _).mp h)]
      exact ih s1 s2 hiff
    · rw [if_neg h, if_neg (fun hx => h ((hiff _).mpr hx))]
      congr 1
      refine ih _ _ ?_
      intro k
      simp only [List.mem_cons]
      constructor
      · rintro (hk | hk)
        · exact Or.inl hk
        · exact Or.inr ((hiff k).mp hk)
      · rintro (hk | hk)
        · exact Or.inl hk
        · exact Or.inr ((hiff k).mpr hk)

theorem foldl_insertEvent_keys (evs : List NormalizedEvent) : ∀ gs : List EventGroup,
    (evs.foldl insertEvent gs).map EventGroup.key =
      gs.map EventGroup.key ++ firstSeenKeys (gs.map EventGroup.key) evs := by
  induction evs with
  | nil =>
    intro gs
    simp [firstSeenKeys]
  | cons e rest ih =>
    intro gs
    simp only [List.foldl_cons, firstSeenKeys]
    by_cases h : eventKey e ∈ gs.map EventGroup.key
    · rw [if_pos h, ih, keys_insertEvent, if_pos h]
    · rw [if_neg h, ih, keys_insertEvent, if_neg h, List.append_assoc]
      congr 1
      simp only [List.singleton_append]
      congr 1
      refine firstSeenKeys_congr rest _ _ ?_
      intro k
      simp [or_comm]

theorem firstSeenKeys_nodup (evs : List NormalizedEvent) : ∀ seen : List String,
    (firstSeenKeys seen evs).Nodup ∧ ∀ k ∈ firstSeenKeys seen evs, k ∉ seen := by
  induction evs with
  | nil =>
    intro seen
    simp [firstSeenKeys]
  | cons e rest ih =>
    intro seen
    simp only [firstSeenKeys]
    by_cases h : eventKey e ∈ seen
    · rw [if_pos h]
      exact ih seen
    · rw [if_neg h]
      obtain ⟨h1, h2⟩ := ih (eventKey e :: seen)
      constructor
      · refine List.Nodup.cons ?_ h1
        intro hmem
        exact (h2 _ hmem) (List.mem_cons_self _ _)
      · intro k hk
        rcases List.mem_cons.mp hk with hk1 | hk2
        · rw [hk1]
          exact h
        · intro hks
          exact (h2 _ hk2) (List.mem_cons_of_mem _ hks)

/-- C6: the grouping engine partitions its input.  The concatenation
of the groups' event lists is a permutation of the input (no event
dropped or duplicated), each group's event list is a subsequence of
the input (input order kept within each group), the group keys are
exactly the input keys in first-seen order, and no key occurs twice. -/
theorem C6_grouping_partition (evs : List NormalizedEvent) :
    (((groupEventsBySummary evs).map EventGroup.events).flatten).Perm evs ∧
    (∀ g ∈ groupEventsBySummary evs, g.events.Sublist evs) ∧
    (groupEventsBySummary evs).map EventGroup.key = firstSeenKeys [] evs ∧
    ((groupEventsBySummary evs).map EventGroup.key).Nodup := by
  refine ⟨?_, ?_, ?_, ?_⟩
  · have := foldl_insertEvent_join evs []
    simpa [groupEventsBySummary] using this
  · intro g hg
    have := foldl_insertEvent_sublist evs [] [] (by simp) g hg
    simpa using this
  · have := foldl_insertEvent_keys evs []
    simpa [groupEventsBySummary] using this
  · have hk := foldl_insertEvent_keys evs []
    have hn := (firstSeenKeys_nodup evs []).1
    simp only [groupEventsBySummary]
    rw [hk]
    simpa using hn

/-- Sample timed event titled a. -/
def evA : NormalizedEvent :=
  { summary := "a", description := "", location := "", isAllDay := false,
    startMs := 0, endMs := 3600000, startYMD := none, endYMD := none }

/-- Sample timed event titled b. -/
def evB : NormalizedEvent :=
  { summary := "b", description := "", location := "", isAllDay := false,
    startMs := 7200000, endMs := 10800000, startYMD := none, endYMD := none }

/-- Sample timed event whose title differs from evA only in case and
surrounding whitespace. -/
def evA2 : NormalizedEvent :=
  { summary := " A ", description := "", location := "", isAllDay := false,
    startMs := 14400000, endMs := 18000000, startYMD := none, endYMD := none }

/-- Group expected for the key of evA when grouping evA, evB, evA2. -/
def grpA : EventGroup := { key := "a", label := "a", events := [evA, evA2] }

/-- C6, witness: the partition properties applied to a concrete
three-event input with a repeated case-folded title. -/
theorem C6_witness :
    grpA ∈ groupEventsBySummary [evA, evB, evA2] ∧
    grpA.events.Sublist [evA, evB, evA2] :=
  ⟨by decide, (C6_grouping_partition [evA, evB, evA2]).2.1 grpA (by decide)⟩

/-- Selection-state lookup: first binding of the key, if any,
modelling JavaScript record indexing selectedGroups[key]. -/
def lookupSel (sel : List (String × Bool)) (k : String) : Option Bool :=
  (sel.find? (fun p => p.1 == k)).map Prod.snd

/-- Selection filter: the ordered subsequence of events whose group
key maps to true, an absent key counting as false.  This embeds the
previewEvents.filter call of addSelectedEvents
(src/renderer/src/App.tsx lines 157-160). -/
def filterSelected (events : List NormalizedEvent) (sel : List (String × Bool)) :
    List NormalizedEvent :=
  events.filter (fun e => (lookupSel sel (eventKey e)).getD false)

/-- Selection state mapping every group key to true, as built by the
select-all handler and the fresh-preview initialization. -/
def selectAllGroups (events : List NormalizedEvent) : List (String × Bool) :=
  (groupEventsBySummary events).map (fun g => (g.key, true))

/-- Selection state mapping every group key to false, as built by the
clear-all handler. -/
def clearAllGroups (events : List NormalizedEvent) : List (String × Bool) :=
  (groupEventsBySummary events).map (fun g => (g.key, false))

theorem mem_firstSeenKeys (evs : List NormalizedEvent) :
    ∀ (seen : List String) (e : NormalizedEvent), e ∈ evs →
      eventKey e ∈ seen ∨ eventKey e ∈ firstSeenKeys seen evs := by
  induction evs with
  | nil =>
    intro seen e he
    cases he
  | cons e0 rest ih =>
    intro seen e he
    simp only [firstSeenKeys]
    rcases List.mem_cons.mp he with he1 | he1
    · subst he1
      by_cases h : eventKey e ∈ seen
      · exact Or.inl h
      · rw [if_neg h]
        exact Or.inr (List.mem_cons_self _ _)
    · by_cases h : eventKey e0 ∈ seen
      · rw [if_pos h]
        exact ih seen e he1
      · rw [if_neg h]
        rcases ih (eventKey e0 :: seen) e he1 with h2 | h2
        · rcases List.mem_cons.mp h2 with h3 | h3
          · exact Or.inr (h3 ▸ List.mem_cons_self _ _)
          · exact Or.inl h3
        · exact Or.inr (List.mem_cons_of_mem _ h2)

theorem eventKey_mem_group_keys (evs : List NormalizedEvent) (e : NormalizedEvent)
    (he : e ∈ evs) :
    eventKey e ∈ (groupEventsBySummary evs).map EventGroup.key := by
  have hk := foldl_insertEvent_keys evs []
  simp only [groupEventsBySummary]
  rw [hk]
  simp only [List.map_nil, List.nil_append]
  rcases mem_firstSeenKeys evs [] e he with h | h
  · cases h
  · exact h

theorem lookupSel_map_const (ks : List String) (k : String) (b : Bool) (hk : k ∈ ks) :
    lookupSel (ks.map (fun x => (x, b))) k = some b := by
  induction ks with
  | nil => cases hk
  | cons x rest ih =>
    simp only [List.map_cons, lookupSel, List.find?]
    by_cases h : x == k
    · simp [h]
    · rcases List.mem_cons.mp hk with hk1 | hk1
      · exact absurd (beq_iff_eq.mpr hk1.symm) h
      · simp only [h]
        exact ih hk1

/-- C7: filtering with the select-all state returns the whole input
in order, filtering with the clear-all state returns the empty list,
and an event whose key is absent from the selection state is never
kept by the filter. -/
theorem C7_selectAll_clearAll (evs : List NormalizedEvent) :
    filterSelected evs (selectAllGroups evs) = evs ∧
    filterSelected evs (clearAllGroups evs) = [] ∧
    ∀ (sel : List (String × Bool)) (e : NormalizedEvent),
      lookupSel sel (eventKey e) = none → e ∉ filterSelected evs sel := by
  have hsel : selectAllGroups evs =
      ((groupEventsBySummary evs).map EventGroup.key).map (fun x => (x, true)) := by
    simp [selectAllGroups, List.map_map]
  have hclr : clearAllGroups evs =
      ((groupEventsBySummary evs).map EventGroup.key).map (fun x => (x, false)) := by
    simp [clearAllGroups, List.map_map]
  refine ⟨?_, ?_, ?_⟩
  · apply List.filter_eq_self.mpr
    intro e he
    rw [hsel, lookupSel_map_const _ _ true (eventKey_mem_group_keys evs e he)]
    rfl
  · apply List.filter_eq_nil_iff.mpr
    intro e he
    rw [hclr, lookupSel_map_const _ _ false (eventKey_mem_group_keys evs e he)]
    simp
  · intro sel e hnone hmem
    have hp := (List.mem_filter.mp hmem).2
    rw [hnone] at hp
    cases hp

/-- C7, witness: an event whose key is absent from the empty selection
state is filtered out. -/
theorem C7_witness : evA ∉ filterSelected [evA] [] :=
  (C7_selectAll_clearAll [evA]).2.2 [] evA rfl

theorem find?_some_append {p : NormalizedEvent → Bool} {l1 : List NormalizedEvent}
    {e : NormalizedEvent} (l2 : List NormalizedEvent) (h : l1.find? p = some e) :
    (l1 ++ l2).find? p = some e := by
  induction l1 with
  | nil => simp [List.find?] at h
  | cons a rest ih =>
    rw [List.cons_append]
    by_cases hpa : p a
    · simp only [List.find?, hpa] at h ⊢
      exact h
    · simp only [Bool.not_eq_true] at hpa
      simp only [List.find?, hpa] at h ⊢
      exact ih h

theorem find?_none_append {p : NormalizedEvent → Bool} {l1 : List NormalizedEvent}
    (h : l1.find? p = none) (l2 : List NormalizedEvent) :
    (l1 ++ l2).find? p = l2.find? p := by
  induction l1 with
  | nil => simp
  | cons a rest ih =>
    rw [List.cons_append]
    by_cases hpa : p a
    · simp [List.find?, hpa] at h
    · simp only [Bool.not_eq_true] at hpa
      simp only [List.find?, hpa] at h ⊢
      exact ih h

/-- Soundness relation between an accumulator of groups and the prefix
of events already folded: every group's label comes from the first
event of the prefix bearing its key, and every prefix event's key owns
a group. -/
def GroupsSound (gs : List EventGroup) (pre : List NormalizedEvent) : Prop :=
  (∀ g ∈ gs, ∃ e, pre.find? (fun x => eventKey x == g.key) = some e ∧
    g.label = eventLabel e) ∧
  (∀ x ∈ pre, eventKey x ∈ gs.map EventGroup.key)

theorem insertEvent_sound (gs : List EventGroup) (e : NormalizedEvent)
    (pre : List NormalizedEvent) (h : GroupsSound gs pre) :
    GroupsSound (insertEvent gs e) (pre ++ [e]) := by
  obtain ⟨h1, h2⟩ := h
  constructor
  · intro g hg
    rcases mem_insertEvent gs e g hg with hmem | ⟨g0, hg0, hk, hl, hev⟩ | ⟨hk, hl, hev, hnew⟩
    · obtain ⟨e0, he0, hle⟩ := h1 g hmem
      exact ⟨e0, find?_some_append [e] he0, hle⟩
    · obtain ⟨e0, he0, hle⟩ := h1 g0 hg0
      rw [hk, hl]
      exact ⟨e0, find?_some_append [e] he0, hle⟩
    · have hpre : pre.find? (fun x => eventKey x == g.key) = none := by
        rw [hk]
        apply List.find?_eq_none.mpr
        intro x hx
        simp only [beq_iff_eq]
        intro hxe
        exact hnew (hxe ▸ h2 x hx)
      refine ⟨e, ?_, hl⟩
      rw [find?_none_append hpre [e]]
      simp [List.find?, hk]
  · intro x hx
    rcases List.mem_append.mp hx with hx1 | hx1
    · have hmem := h2 x hx1
      rw [keys_insertEvent]
      split_ifs with hsf
      · exact hmem
      · exact List.mem_append.mpr (Or.inl hmem)
    · have hxe : x = e := by simpa using hx1
      subst hxe
      rw [keys_insertEvent]
      split_ifs with hsf
      · exact hsf
      · exact List.mem_append.mpr (Or.inr (by simp))

theorem foldl_insertEvent_sound (evs : List NormalizedEvent) :
    ∀ (gs : List EventGroup) (pre : List NormalizedEvent),
    GroupsSound gs pre → GroupsSound (evs.foldl insertEvent gs) (pre ++ evs) := by
  induction evs with
  | nil =>
    intro gs pre h
    rw [List.append_nil]
    exact h
  | cons e rest ih =>
    intro gs pre h
    simp only [List.foldl_cons]
    have hstep := ih (insertEvent gs e) (pre ++ [e]) (insertEvent_sound gs e pre h)
    rw [List.append_assoc, List.singleton_append] at hstep
    exact hstep

/-- C9: each group's label is the label (trimmed summary, or the
(no title) default) of the first input event whose key matches the
group's key; later events with the same key never change it. -/
theorem C9_label_first_seen (evs : List NormalizedEvent) (g : EventGroup)
    (hg : g ∈ groupEventsBySummary evs) :
    ∃ e, evs.find? (fun x => eventKey x == g.key) = some e ∧
      g.label = eventLabel e := by
  have hbase : GroupsSound ([] : List EventGroup) ([] : List NormalizedEvent) := by
    constructor
    · intro g hg
      cases hg
    · intro x hx
      cases hx
  have h := foldl_insertEvent_sound evs [] [] hbase
  rw [List.nil_append] at h
  exact h.1 g hg

/-- Sample event titled Standup. -/
def evStandup1 : NormalizedEvent :=
  { summary := "Standup", description := "", location := "", isAllDay := false,
    startMs := 0, endMs := 3600000, startYMD := none, endYMD := none }

/-- Sample event whose title matches evStandup1 up to case and
whitespace. -/
def evStandup2 : NormalizedEvent :=
  { summary := " STANDUP ", description := "", location := "", isAllDay := false,
    startMs := 7200000, endMs := 10800000, startYMD := none, endYMD := none }

/-- Group expected for the two standup events. -/
def grpStandup : EventGroup :=
  { key := "standup", label := "Standup", events := [evStandup1, evStandup2] }

/-- C9, witness: the label of the standup group comes from the first
standup event in input order. -/
theorem C9_witness :
    ∃ e, [evStandup1, evStandup2].find? (fun x => eventKey x == grpStandup.key) = some e ∧
      grpStandup.label = eventLabel e :=
  C9_label_first_seen [evStandup1, evStandup2] grpStandup (by decide)

/-- Two-digit zero padding for minute and second fields. -/
def pad2 (n : Int) : String := if n < 10 then "0" ++ toString n else toString n

/-- Display form of a civil date, month/day/year, the shape produced
by toLocaleDateString in the en-US default locale. -/
def dateDisplay (p : Int × Int × Int) : String :=
  toString p.2.1 ++ "/" ++ toString p.2.2 ++ "/" ++ toString p.1

/-- Model of Date.prototype.toLocaleDateString: the local calendar
date of the instant, rendered month/day/year. -/
def toLocaleDateString (t : Int) : String := dateDisplay (ymd t)

/-- Model of Date.prototype.toLocaleString: local date plus twelve
hour clock time of the instant. -/
def toLocaleString (t : Int) : String :=
  let h24 := getHours t
  let h12 := if h24 = 0 then (12 : Int) else if h24 ≤ 12 then h24 else h24 - 12
  let ampm := if h24 < 12 then "AM" else "PM"
  dateDisplay (ymd t) ++ ", " ++ toString h12 ++ ":" ++ pad2 (getMinutes t) ++ ":" ++
    pad2 (getSeconds t) ++ " " ++ ampm

/-- Single-event date formatter, embedding formatEventDate of
src/renderer/src/App.tsx lines 56-72.  The all-day branch compares the
local calendar dates of the two instants, which is what the source's
toDateString equality test observes. -/
def formatEventDate (e : NormalizedEvent) : String :=
  match e.isAllDay, e.startYMD, e.endYMD with
  | true, some sy, some ey =>
    let start := msFromYMD sy
    let endInclusive := msFromYMD ey - 86400000
    if ymd start = ymd endInclusive then
      toLocaleDateString start ++ " (all day)"
    else
      toLocaleDateString start ++ " - " ++ toLocaleDateString endInclusive ++ " (all day)"
  | _, _, _ =>
    toLocaleString e.startMs ++ " - " ++ toLocaleString e.endMs

/-- Effective start instant of an event for group range computation,
embedding eventStartTime of src/renderer/src/App.tsx lines 49-54. -/
def eventStartTime (e : NormalizedEvent) : Int :=
  match e.isAllDay, e.startYMD with
  | true, some sy => msFromYMD sy
  | _, _ => e.startMs

/-- C8: on a well-formed all-day event (both YMD fields populated with
canonical civil dates), the formatter renders the inclusive last day,
computed as the end date minus one calendar day; it renders a single
date with the all-day suffix when the start date equals that inclusive
end date, and the two-date range otherwise. -/
theorem C8_allDay_inclusive_end (e : NormalizedEvent) (sy ey : Int × Int × Int)
    (hall : e.isAllDay = true) (hs : e.startYMD = some sy) (he : e.endYMD = some ey)
    (hvs : civilFromDays (daysFromCivil sy) = sy)
    (_hve : civilFromDays (daysFromCivil ey) = ey) :
    formatEventDate e =
      if sy = civilFromDays (daysFromCivil ey - 1) then
        dateDisplay sy ++ " (all day)"
      else
        dateDisplay sy ++ " - " ++ dateDisplay (civilFromDays (daysFromCivil ey - 1)) ++
          " (all day)" := by
  have h1 : ymd (msFromYMD sy) = sy := by
    simp only [ymd, msFromYMD]
    rw [show daysFromCivil sy * 86400000 / 86400000 = daysFromCivil sy from by omega]
    exact hvs
  have h2 : ymd (msFromYMD ey - 86400000) = civilFromDays (daysFromCivil ey - 1) := by
    simp only [ymd, msFromYMD]
    rw [show (daysFromCivil ey * 86400000 - 86400000) / 86400000 =
      daysFromCivil ey - 1 from by omega]
  obtain ⟨s1, d1, l1, a1, sm, em, syf, eyf⟩ := e
  dsimp only at hall hs he
  subst hall
  subst hs
  subst he
  simp only [formatEventDate, toLocaleDateString]
  rw [h1, h2]

/-- Sample well-formed all-day event spanning three days. -/
def evTrip : NormalizedEvent :=
  { summary := "trip", description := "", location := "", isAllDay := true,
    startMs := 0, endMs := 0, startYMD := some (2024, 3, 1), endYMD := some (2024, 3, 4) }

/-- C8, witness: the three-day all-day event renders the inclusive end
3/3/2024, one calendar day before the stored exclusive end. -/
theorem C8_witness : formatEventDate evTrip = "3/1/2024 - 3/3/2024 (all day)" :=
  (C8_allDay_inclusive_end evTrip (2024, 3, 1) (2024, 3, 4) rfl rfl rfl
    (by decide) (by decide)).trans (by decide)

/-- C10: the single-event formatter is total on ill-formed all-day
events: with either YMD field missing it falls back to the timed
start-to-end rendering built from the millisecond fields, and the
group effective-start computation falls back to startMs when startYMD
is missing. -/
theorem C10_formatter_total :
    (∀ e : NormalizedEvent, e.isAllDay = true →
      e.startYMD = none ∨ e.endYMD = none →
      formatEventDate e = toLocaleString e.startMs ++ " - " ++ toLocaleString e.endMs) ∧
    (∀ e : NormalizedEvent, e.startYMD = none → eventStartTime e = e.startMs) := by
  constructor
  · intro e hall hnone
    obtain ⟨s1, d1, l1, a1, sm, em, syf, eyf⟩ := e
    dsimp only at hall hnone ⊢
    subst hall
    rcases hnone with h | h
    · subst h
      cases eyf <;> rfl
    · subst h
      cases syf <;> rfl
  · intro e h
    obtain ⟨s1, d1, l1, a1, sm, em, syf, eyf⟩ := e
    dsimp only at h ⊢
    subst h
    cases a1 <;> rfl

/-- Sample ill-formed event: flagged all-day but with both YMD fields
missing. -/
def evBroken : NormalizedEvent :=
  { summary := "x", description := "", location := "", isAllDay := true,
    startMs := 0, endMs := 3600000, startYMD := none, endYMD := none }

/-- C10, witness: the fallbacks applied to a concrete ill-formed
event. -/
theorem C10_witness :
    formatEventDate evBroken =
      toLocaleString evBroken.startMs ++ " - " ++ toLocaleString evBroken.endMs ∧
    eventStartTime evBroken = evBroken.startMs :=
  ⟨C10_formatter_total.1 evBroken rfl (Or.inl rfl), C10_formatter_total.2 evBroken rfl⟩
